import Mathlib

/-!
Verification of the index-management and cycle-control logic of an
active-learning training loop, against its Python source:

* `utils.py` — `postprocess_indices` (promotion of unlabeled indices into the
  labeled pool, via a boolean keep-mask) and `stratified_random_sampling`
  (random subsampling through `numpy.random.default_rng().choice`);
* `code/train.py` — the per-epoch cycle controller (best-recall tracking,
  stagnation counter, warmup/patience-gated sampling trigger);
* `active_learning/uncertainty_sampling.py` — the `UncertaintySampling`
  strategy class: the five scoring functions (`least_confidence`,
  `margin_confidence`, `ratio_confidence`, `entropy_based`,
  `density_weighted`) and the `get_samples` selection pipeline.

Index sequences are modelled as `List ℕ`, probability rows and feature rows
as `List ℝ`, recalls as `ℚ`.  `torch.argsort` (called with its default
`stable=False`) is modelled relationally: any permutation of the positions
that sorts the scores is a permitted output.
-/

/-! ### IndexSet Manager: `postprocess_indices` (utils.py, lines 119–125) -/

/-- Boolean-mask selection, modelling numpy boolean indexing `arr[mask]`:
keeps the entries of `l` at the positions where `mask` holds `true`. -/
def boolSelect (l : List ℕ) (mask : List Bool) : List ℕ :=
  ((l.zip mask).filter (fun p => p.2)).map (fun p => p.1)

/-- Model of `postprocess_indices(labeled_indices, unlabeled_indices,
samples_indices)` from `utils.py`:

```
unlabeled_mask = torch.ones(size=(len(unlabeled_indices),), dtype=torch.bool)
unlabeled_mask[samples_indices] = 0
labeled_indices = np.hstack([labeled_indices, unlabeled_indices[~unlabeled_mask]])
unlabeled_indices = unlabeled_indices[unlabeled_mask]
return labeled_indices, unlabeled_indices
```

The fancy assignment `unlabeled_mask[samples_indices] = 0` writes the same
value `0` at each listed position, so its result is position-wise: position
`i` ends up `false` exactly when `i` occurs in `samples_indices` (idempotent
under duplicates).  The mask is materialised that way here. -/
def postprocess_indices (labeled unlabeled : List ℕ) (samples : List ℕ) :
    List ℕ × List ℕ :=
  let unlabeled_mask : List Bool :=
    (List.range unlabeled.length).map (fun i => decide (i ∉ samples))
  (labeled ++ boolSelect unlabeled (unlabeled_mask.map (fun b => !b)),
   boolSelect unlabeled unlabeled_mask)

/-- The dataset indices promoted by a call to `postprocess_indices`: the
entries of `unlabeled` at the selected positions, taken in
unlabeled-sequence order (this is what `unlabeled_indices[~unlabeled_mask]`
produces). -/
def promotedEntries (unlabeled : List ℕ) (samples : List ℕ) : List ℕ :=
  (((List.range unlabeled.length).filter (fun i => decide (i ∈ samples))).map
    (fun i => unlabeled.getD i 0))

/-- The dataset indices surviving in the unlabeled pool after a call to
`postprocess_indices` (what `unlabeled_indices[unlabeled_mask]` produces). -/
def survivingEntries (unlabeled : List ℕ) (samples : List ℕ) : List ℕ :=
  (((List.range unlabeled.length).filter (fun i => !decide (i ∈ samples))).map
    (fun i => unlabeled.getD i 0))

theorem boolSelect_nil (mask : List Bool) : boolSelect [] mask = [] := rfl

theorem boolSelect_cons (x : ℕ) (l : List ℕ) (b : Bool) (mask : List Bool) :
    boolSelect (x :: l) (b :: mask) =
      if b then x :: boolSelect l mask else boolSelect l mask := by
  cases b <;> simp [boolSelect]

theorem boolSelect_sublist : ∀ (l : List ℕ) (mask : List Bool),
    (boolSelect l mask).Sublist l := by
  intro l
  induction l with
  | nil => intro mask; simp [boolSelect]
  | cons x xs ih =>
      intro mask
      cases mask with
      | nil => simp [boolSelect]
      | cons b m =>
          rw [boolSelect_cons]
          cases b
          · exact (ih m).cons x
          · simpa using (ih m).cons₂ x

theorem boolSelect_map_range : ∀ (l : List ℕ) (p : ℕ → Bool),
    boolSelect l ((List.range l.length).map p) =
      ((List.range l.length).filter p).map (fun i => l.getD i 0) := by
  intro l
  induction l with
  | nil => intro p; simp [boolSelect]
  | cons x xs ih =>
      intro p
      rw [List.length_cons, List.range_succ_eq_map]
      rw [List.map_cons, boolSelect_cons]
      rw [List.map_map, List.filter_cons]
      have hmm : (((List.range xs.length).map Nat.succ).filter p) =
          ((List.range xs.length).filter (p ∘ Nat.succ)).map Nat.succ := by
        simpa using List.filter_map Nat.succ (List.range xs.length)
      have hsel : boolSelect xs ((List.range xs.length).map (p ∘ Nat.succ)) =
          ((List.range xs.length).filter (p ∘ Nat.succ)).map
            (fun i => xs.getD i 0) := ih (p ∘ Nat.succ)
      cases hp : p 0 <;>
        simp [hp, hmm, hsel, List.map_map, Function.comp]

theorem postprocess_indices_eq (labeled unlabeled samples : List ℕ) :
    postprocess_indices labeled unlabeled samples =
      (labeled ++ promotedEntries unlabeled samples,
        survivingEntries unlabeled samples) := by
  unfold postprocess_indices promotedEntries survivingEntries
  dsimp only
  rw [List.map_map]
  have h1 : ((fun b => !b) ∘ fun i => decide (i ∉ samples)) =
      (fun i => decide (i ∈ samples)) := by
    funext i; by_cases h : i ∈ samples <;> simp [h]
  have h2 : (fun i => decide (i ∉ samples)) = (fun i => !decide (i ∈ samples)) := by
    funext i; by_cases h : i ∈ samples <;> simp [h]
  rw [h1, h2, boolSelect_map_range, boolSelect_map_range]

theorem filter_range_mem_perm (samples : List ℕ) (n : ℕ) (hnd : samples.Nodup)
    (hlt : ∀ i ∈ samples, i < n) :
    ((List.range n).filter (fun i => decide (i ∈ samples))).Perm samples := by
  rw [List.perm_ext_iff_of_nodup ((List.nodup_range n).filter _) hnd]
  intro a
  simp only [List.mem_filter, List.mem_range, decide_eq_true_eq]
  exact ⟨fun h => h.2, fun h => ⟨hlt a h, h⟩⟩

theorem map_getD_range (l : List ℕ) :
    (List.range l.length).map (fun i => l.getD i 0) = l := by
  apply List.ext_getElem (by simp)
  intro n h1 h2
  rw [List.getElem_map]
  rw [List.getElem_range, List.getD_eq_getElem l 0 h2]

/-- Membership characterization for the promoted/surviving entry lists. -/
theorem mem_map_filter_range (unlabeled : List ℕ) (p : ℕ → Bool) (x : ℕ) :
    (x ∈ ((List.range unlabeled.length).filter p).map
        (fun i => unlabeled.getD i 0)) ↔
      ∃ i, i < unlabeled.length ∧ p i = true ∧ unlabeled.getD i 0 = x := by
  simp only [List.mem_map, List.mem_filter, List.mem_range]
  constructor
  · rintro ⟨i, ⟨hi, hp⟩, hx⟩; exact ⟨i, hi, hp, hx⟩
  · rintro ⟨i, hi, hp, hx⟩; exact ⟨i, ⟨hi, hp⟩, hx⟩

theorem promoted_surviving_disjoint (unlabeled samples : List ℕ)
    (hnd : unlabeled.Nodup) (x : ℕ) (hx : x ∈ promotedEntries unlabeled samples) :
    x ∉ survivingEntries unlabeled samples := by
  intro hy
  rw [promotedEntries, mem_map_filter_range] at hx
  rw [survivingEntries, mem_map_filter_range] at hy
  obtain ⟨i, hi, hpi, hxi⟩ := hx
  obtain ⟨j, hj, hpj, hxj⟩ := hy
  rw [List.getD_eq_getElem unlabeled 0 hi] at hxi
  rw [List.getD_eq_getElem unlabeled 0 hj] at hxj
  have hij : i = j := (List.Nodup.getElem_inj_iff hnd).mp (hxi.trans hxj.symm)
  subst hij
  simp only [decide_eq_true_eq] at hpi
  simp [hpi] at hpj

theorem promoted_append_surviving_perm (unlabeled samples : List ℕ) :
    (promotedEntries unlabeled samples ++ survivingEntries unlabeled samples).Perm
      unlabeled := by
  rw [promotedEntries, survivingEntries, ← List.map_append]
  have h := List.filter_append_perm (fun i => decide (i ∈ samples))
    (List.range unlabeled.length)
  calc ((List.filter (fun i => decide (i ∈ samples)) (List.range unlabeled.length) ++
          List.filter (fun i => !decide (i ∈ samples)) (List.range unlabeled.length)).map
            (fun i => unlabeled.getD i 0)).Perm
        ((List.range unlabeled.length).map (fun i => unlabeled.getD i 0)) := h.map _
    _ = unlabeled := map_getD_range unlabeled

theorem promotedEntries_length (unlabeled samples : List ℕ)
    (hnd : samples.Nodup) (hlt : ∀ i ∈ samples, i < unlabeled.length) :
    (promotedEntries unlabeled samples).length = samples.length := by
  rw [promotedEntries, List.length_map]
  exact (filter_range_mem_perm samples unlabeled.length hnd hlt).length_eq

theorem filter_lengths_split (unlabeled samples : List ℕ) :
    ((List.range unlabeled.length).filter (fun i => decide (i ∈ samples))).length +
      ((List.range unlabeled.length).filter (fun i => !decide (i ∈ samples))).length =
      unlabeled.length := by
  have h := (List.filter_append_perm (fun i => decide (i ∈ samples))
    (List.range unlabeled.length)).length_eq
  simpa using h

theorem survivingEntries_length (unlabeled samples : List ℕ)
    (hnd : samples.Nodup) (hlt : ∀ i ∈ samples, i < unlabeled.length) :
    (survivingEntries unlabeled samples).length =
      unlabeled.length - samples.length := by
  have hp := promotedEntries_length unlabeled samples hnd hlt
  rw [promotedEntries, List.length_map] at hp
  have hs := filter_lengths_split unlabeled samples
  rw [survivingEntries, List.length_map]
  omega

theorem survivingEntries_subset (unlabeled samples : List ℕ) :
    ∀ x ∈ survivingEntries unlabeled samples, x ∈ unlabeled := by
  intro x hx
  rw [survivingEntries, mem_map_filter_range] at hx
  obtain ⟨i, hi, _, hxi⟩ := hx
  rw [List.getD_eq_getElem unlabeled 0 hi] at hxi
  exact hxi ▸ List.getElem_mem hi

/-- Claim C1: for disjoint labeled/unlabeled index sequences and a selection of
`k` distinct in-range positions into the unlabeled sequence,
`postprocess_indices` returns `new_labeled` of length `len(labeled) + k` and
`new_unlabeled` of length `len(unlabeled) - k`; the outputs are disjoint, their
multiset union equals the original union, the promoted entries keep their
dataset-index values and are appended at the end of `labeled` in
unlabeled-sequence order, the surviving unlabeled entries keep their relative
order, and the concrete scenario `labeled=[0,1,2]`, `unlabeled=[3,4,5,6]`,
selected position `1` yields `([0,1,2,4], [3,5,6])`. -/
theorem claim_C1 (labeled unlabeled samples : List ℕ)
    (hdisj : ∀ x ∈ labeled, x ∉ unlabeled)
    (hndU : unlabeled.Nodup)
    (hndS : samples.Nodup)
    (hrange : ∀ i ∈ samples, i < unlabeled.length) :
    (postprocess_indices labeled unlabeled samples).1.length =
        labeled.length + samples.length ∧
      (postprocess_indices labeled unlabeled samples).2.length =
        unlabeled.length - samples.length ∧
      (∀ x ∈ (postprocess_indices labeled unlabeled samples).1,
        x ∉ (postprocess_indices labeled unlabeled samples).2) ∧
      ((postprocess_indices labeled unlabeled samples).1 :
          Multiset ℕ) + ((postprocess_indices labeled unlabeled samples).2 :
          Multiset ℕ) = (labeled : Multiset ℕ) + (unlabeled : Multiset ℕ) ∧
      (postprocess_indices labeled unlabeled samples).1 =
        labeled ++ promotedEntries unlabeled samples ∧
      ((postprocess_indices labeled unlabeled samples).2).Sublist unlabeled ∧
      postprocess_indices [0, 1, 2] [3, 4, 5, 6] [1] = ([0, 1, 2, 4], [3, 5, 6]) := by
  rw [postprocess_indices_eq]
  refine ⟨?_, ?_, ?_, ?_, rfl, ?_, by decide⟩
  · rw [List.length_append, promotedEntries_length unlabeled samples hndS hrange]
  · exact survivingEntries_length unlabeled samples hndS hrange
  · intro x hx hy
    rcases List.mem_append.mp hx with hxl | hxp
    · exact hdisj x hxl (survivingEntries_subset unlabeled samples x hy)
    · exact promoted_surviving_disjoint unlabeled samples hndU x hxp hy
  · have hperm := promoted_append_surviving_perm unlabeled samples
    calc ((labeled ++ promotedEntries unlabeled samples : List ℕ) : Multiset ℕ) +
          (survivingEntries unlabeled samples : Multiset ℕ)
        = (labeled : Multiset ℕ) +
            ((promotedEntries unlabeled samples ++
              survivingEntries unlabeled samples : List ℕ) : Multiset ℕ) := by
          simp [add_assoc]
      _ = (labeled : Multiset ℕ) + (unlabeled : Multiset ℕ) := by
          rw [Multiset.coe_eq_coe.mpr hperm]
  · have h2 : survivingEntries unlabeled samples =
        boolSelect unlabeled
          ((List.range unlabeled.length).map (fun i => decide (i ∉ samples))) := by
      have := postprocess_indices_eq labeled unlabeled samples
      exact (congrArg Prod.snd this).symm
    rw [h2]
    exact boolSelect_sublist _ _

/-- Witness for claim C1 at the spec's end-to-end scenario. -/
theorem claim_C1_witness :
    (∀ x ∈ [0, 1, 2], x ∉ [3, 4, 5, 6]) ∧
      ([3, 4, 5, 6] : List ℕ).Nodup ∧ ([1] : List ℕ).Nodup ∧
      (∀ i ∈ [1], i < ([3, 4, 5, 6] : List ℕ).length) ∧
      (postprocess_indices [0, 1, 2] [3, 4, 5, 6] [1]).1.length =
        ([0, 1, 2] : List ℕ).length + ([1] : List ℕ).length := by
  refine ⟨by decide, by decide, by decide, by decide, ?_⟩
  exact (claim_C1 [0, 1, 2] [3, 4, 5, 6] [1] (by decide) (by decide) (by decide)
    (by decide)).1

theorem promotedEntries_length_dedup (unlabeled samples : List ℕ)
    (hlt : ∀ i ∈ samples, i < unlabeled.length) :
    (promotedEntries unlabeled samples).length = samples.dedup.length := by
  rw [promotedEntries, List.length_map]
  have hfun : (fun i => decide (i ∈ samples)) =
      (fun i => decide (i ∈ samples.dedup)) := by
    funext i; simp [List.mem_dedup]
  rw [hfun]
  exact (filter_range_mem_perm samples.dedup unlabeled.length
    (List.nodup_dedup samples)
    (fun i hi => hlt i (List.mem_dedup.mp hi))).length_eq

/-- Claim C9 (implicit): when the selected-positions sequence contains
duplicate in-range positions, `postprocess_indices` neither fails nor
double-promotes: the mask is cleared idempotently, so `labeled` grows by the
number of distinct selected positions (not by `len(selected_indices)`), the
returned sequences are still disjoint, and no entry is lost or duplicated. -/
theorem claim_C9 (labeled unlabeled samples : List ℕ)
    (hdisj : ∀ x ∈ labeled, x ∉ unlabeled)
    (hndU : unlabeled.Nodup)
    (hrange : ∀ i ∈ samples, i < unlabeled.length) :
    (postprocess_indices labeled unlabeled samples).1.length =
        labeled.length + samples.dedup.length ∧
      (∀ x ∈ (postprocess_indices labeled unlabeled samples).1,
        x ∉ (postprocess_indices labeled unlabeled samples).2) ∧
      ((postprocess_indices labeled unlabeled samples).1 :
          Multiset ℕ) + ((postprocess_indices labeled unlabeled samples).2 :
          Multiset ℕ) = (labeled : Multiset ℕ) + (unlabeled : Multiset ℕ) := by
  rw [postprocess_indices_eq]
  refine ⟨?_, ?_, ?_⟩
  · rw [List.length_append, promotedEntries_length_dedup unlabeled samples hrange]
  · intro x hx hy
    rcases List.mem_append.mp hx with hxl | hxp
    · exact hdisj x hxl (survivingEntries_subset unlabeled samples x hy)
    · exact promoted_surviving_disjoint unlabeled samples hndU x hxp hy
  · have hperm := promoted_append_surviving_perm unlabeled samples
    calc ((labeled ++ promotedEntries unlabeled samples : List ℕ) : Multiset ℕ) +
          (survivingEntries unlabeled samples : Multiset ℕ)
        = (labeled : Multiset ℕ) +
            ((promotedEntries unlabeled samples ++
              survivingEntries unlabeled samples : List ℕ) : Multiset ℕ) := by
          simp [add_assoc]
      _ = (labeled : Multiset ℕ) + (unlabeled : Multiset ℕ) := by
          rw [Multiset.coe_eq_coe.mpr hperm]

/-- Witness for claim C9: duplicated selected position `1` promotes a single
entry (labeled grows by one, not two). -/
theorem claim_C9_witness :
    (∀ x ∈ [0, 1, 2], x ∉ [3, 4, 5, 6]) ∧
      ([3, 4, 5, 6] : List ℕ).Nodup ∧
      (∀ i ∈ [1, 1], i < ([3, 4, 5, 6] : List ℕ).length) ∧
      (postprocess_indices [0, 1, 2] [3, 4, 5, 6] [1, 1]).1.length =
        ([0, 1, 2] : List ℕ).length + ([1, 1] : List ℕ).dedup.length := by
  refine ⟨by decide, by decide, by decide, ?_⟩
  exact (claim_C9 [0, 1, 2] [3, 4, 5, 6] [1, 1] (by decide) (by decide)
    (by decide)).1

/-! ### Cycle Controller (code/train.py, epoch loop of `main`)

The per-epoch logic modelled here, from `train.py`:

```
best_recall, best_report, last_best_epochs = 0, None, 0
for epoch in range(args.start_epoch, args.epochs):
    ...
    is_best = val_report['macro avg']['recall'] > best_recall
    last_best_epochs = 0 if is_best else last_best_epochs + 1
    if epoch > args.labeled_warmup_epochs and last_best_epochs > args.add_labeled_epochs:
        ... perform_sampling ...
        last_best_epochs = 0
    else:
        best_recall = val_report['macro avg']['recall'] if is_best else best_recall
        best_report = val_report if is_best else best_report
        best_model = deepcopy(model) if is_best else best_model
```

Recalls are modelled as `ℚ`, the thresholds `labeled_warmup_epochs` and
`add_labeled_epochs` as `ℤ`.  The stop condition `current_labeled >
args.stop_labeled` only cuts the loop short and is orthogonal to the
per-epoch trigger, so the model runs over a given recall sequence. -/

/-- Controller state carried across epochs (`best_recall`,
`last_best_epochs`). -/
structure TrainState where
  best_recall : ℚ
  last_best_epochs : ℕ
deriving DecidableEq, Repr

/-- One epoch of the controller: computes `is_best`, updates the stagnation
counter, fires sampling when `epoch > warmup ∧ counter > patience` (resetting
the counter), otherwise updates `best_recall`.  Returns the next state and
whether sampling fired. -/
def epochStep (warmup patience : ℤ) (epoch : ℕ) (s : TrainState) (r : ℚ) :
    TrainState × Bool :=
  let is_best : Bool := decide (s.best_recall < r)
  let lbe : ℕ := if is_best then 0 else s.last_best_epochs + 1
  if (epoch : ℤ) > warmup ∧ (lbe : ℤ) > patience then
    (⟨s.best_recall, 0⟩, true)
  else
    (⟨if is_best then r else s.best_recall, lbe⟩, false)

/-- Controller state before epoch `e`, over the recall sequence `rs`
(initially `best_recall, last_best_epochs = 0, 0`). -/
def stateAt (warmup patience : ℤ) (rs : List ℚ) : ℕ → TrainState
  | 0 => ⟨0, 0⟩
  | e + 1 =>
      (epochStep warmup patience e (stateAt warmup patience rs e)
        (rs.getD e 0)).1

/-- Whether the sampling/promotion branch is taken at epoch `e`. -/
def firesAt (warmup patience : ℤ) (rs : List ℚ) (e : ℕ) : Bool :=
  (epochStep warmup patience e (stateAt warmup patience rs e) (rs.getD e 0)).2

/-- The stagnation counter as updated at epoch `e`, before the trigger check:
`0` on an improving epoch, previous value plus one otherwise. -/
def updatedCounter (warmup patience : ℤ) (rs : List ℚ) (e : ℕ) : ℕ :=
  if (stateAt warmup patience rs e).best_recall < rs.getD e 0 then 0
  else (stateAt warmup patience rs e).last_best_epochs + 1

/-- Claim C2: for every recall sequence, sampling fires at an epoch iff the
epoch index exceeds the warmup threshold AND the stagnation counter (set to 0
on an improving epoch, incremented by 1 otherwise) exceeds the patience
window; moreover the counter stored for the next epoch is reset to 0 exactly
when sampling fires. -/
theorem claim_C2 (warmup patience : ℤ) (rs : List ℚ) (e : ℕ) :
    (firesAt warmup patience rs e = true ↔
        ((e : ℤ) > warmup ∧ (updatedCounter warmup patience rs e : ℤ) > patience)) ∧
      updatedCounter warmup patience rs e =
        (if (stateAt warmup patience rs e).best_recall < rs.getD e 0 then 0
          else (stateAt warmup patience rs e).last_best_epochs + 1) ∧
      (stateAt warmup patience rs (e + 1)).last_best_epochs =
        (if firesAt warmup patience rs e then 0
          else updatedCounter warmup patience rs e) := by
  refine ⟨?_, rfl, ?_⟩
  · unfold firesAt epochStep updatedCounter
    by_cases hb : (stateAt warmup patience rs e).best_recall < rs.getD e 0 <;>
      simp [hb] <;> split_ifs <;> simp_all
  · unfold stateAt firesAt epochStep updatedCounter
    by_cases hb : (stateAt warmup patience rs e).best_recall < rs.getD e 0 <;>
      simp [hb] <;> split_ifs <;> simp_all

/-- Claim C10 (implicit): with a non-negative patience window, whenever the
sampling branch is taken the epoch is not a new best (its recall does not
exceed `best_recall`), so skipping the best-recall update inside the sampling
branch never discards a strictly better epoch, and `best_recall` is
monotonically non-decreasing across epochs. -/
theorem claim_C10 (warmup patience : ℤ) (hp : 0 ≤ patience) (rs : List ℚ) (e : ℕ) :
    (firesAt warmup patience rs e = true →
        rs.getD e 0 ≤ (stateAt warmup patience rs e).best_recall) ∧
      (stateAt warmup patience rs e).best_recall ≤
        (stateAt warmup patience rs (e + 1)).best_recall := by
  have hstate : stateAt warmup patience rs (e + 1) =
      (epochStep warmup patience e (stateAt warmup patience rs e)
        (rs.getD e 0)).1 := rfl
  rw [hstate]
  set s := stateAt warmup patience rs e with hs
  set r := rs.getD e 0 with hr
  rcases hdb : decide (s.best_recall < r) with _ | _
  · have hble := of_decide_eq_false hdb
    unfold firesAt epochStep
    rw [← hs, ← hr, hdb]
    simp only [Bool.false_eq_true, if_false]
    split_ifs with hc
    · exact ⟨fun _ => le_of_not_lt hble, le_refl _⟩
    · exact ⟨fun h => absurd h (by simp), le_refl _⟩
  · have hblt := of_decide_eq_true hdb
    unfold firesAt epochStep
    rw [← hs, ← hr, hdb]
    simp only [if_true]
    split_ifs with hc
    · exfalso
      have h2 := hc.2
      simp only [Nat.cast_zero] at h2
      omega
    · exact ⟨fun h => absurd h (by simp), le_of_lt hblt⟩

/-- Witness for claim C10: warmup 0, patience 0, recalls `[1, 0]`; sampling
fires at epoch 1 and its recall `0` indeed does not exceed the retained best
recall. -/
theorem claim_C10_witness :
    (0 : ℤ) ≤ 0 ∧ firesAt 0 0 [1, 0] 1 = true ∧
      ([1, 0] : List ℚ).getD 1 0 ≤ (stateAt 0 0 [1, 0] 1).best_recall := by
  refine ⟨le_refl 0, by decide, ?_⟩
  exact (claim_C10 0 0 (le_refl 0) [1, 0] 1).1 (by decide)

/-! ### Random subsampling: `stratified_random_sampling` (utils.py, lines 112–116)

```
def stratified_random_sampling(unlabeled_indices, number):
    rng = default_rng()
    samples_indices = rng.choice(unlabeled_indices.shape[0], size=number, replace=False)
    return samples_indices
```

`numpy.random.default_rng()` is created WITHOUT a seed, freshly on every
call, so it is seeded from OS entropy and is unaffected by the
`np.random.seed(args.seed)` performed in `main` (code/train.py).  The
generator is therefore modelled as an explicit entropy stream
`stream : ℕ → ℕ`: `stream i` is the raw draw used at Fisher–Yates step `i`.
`Generator.choice(n, size=k, replace=False)` (without probabilities) is
`self.permutation(n)[:k]`, and `Generator.permutation(n)` shuffles
`arange(n)` by the Fisher–Yates loop `for i in reversed(range(1, n)):
j = uniform(0..i); swap(a[i], a[j])`. -/

/-- Swap the entries of `l` at positions `i` and `j`. -/
def swapIdx (l : List ℕ) (i j : ℕ) : List ℕ :=
  (l.set i (l.getD j 0)).set j (l.getD i 0)

/-- Fisher–Yates steps for positions `k, k-1, …, 1`, drawing the partner
position for step `i` as `stream i % (i + 1)` (a uniform draw in `0…i`). -/
def shuffleSteps (stream : ℕ → ℕ) : ℕ → List ℕ → List ℕ
  | 0, l => l
  | i + 1, l => shuffleSteps stream i (swapIdx l (i + 1) (stream (i + 1) % (i + 2)))

/-- Model of `Generator.permutation(n)` driven by the entropy stream. -/
def rngPermutation (stream : ℕ → ℕ) (n : ℕ) : List ℕ :=
  shuffleSteps stream (n - 1) (List.range n)

/-- Model of `Generator.choice(n, size=number, replace=False)`. -/
def rngChoice (stream : ℕ → ℕ) (n number : ℕ) : List ℕ :=
  (rngPermutation stream n).take number

/-- Model of `stratified_random_sampling(unlabeled_indices, number)`:
`unlabeledLen` is `unlabeled_indices.shape[0]`, `stream` is the fresh OS
entropy backing the unseeded `default_rng()` of this call. -/
def stratified_random_sampling (stream : ℕ → ℕ) (unlabeledLen number : ℕ) :
    List ℕ :=
  rngChoice stream unlabeledLen number

theorem cons_set_perm : ∀ (xs : List ℕ) (m x : ℕ), m < xs.length →
    (xs.getD m 0 :: xs.set m x).Perm (x :: xs) := by
  intro xs
  induction xs with
  | nil => intro m x h; simp at h
  | cons y ys ih =>
      intro m x h
      cases m with
      | zero => simpa using List.Perm.swap x y ys
      | succ m =>
          have hm : m < ys.length := by simpa using h
          have h1 : ((y :: ys).getD (m + 1) 0 :: (y :: ys).set (m + 1) x) =
              ys.getD m 0 :: y :: ys.set m x := by simp
          rw [h1]
          have h2 : (ys.getD m 0 :: y :: ys.set m x).Perm
              (y :: ys.getD m 0 :: ys.set m x) := List.Perm.swap _ _ _
          have h3 : (y :: ys.getD m 0 :: ys.set m x).Perm (y :: x :: ys) :=
            (ih m x hm).cons y
          have h4 : (y :: x :: ys).Perm (x :: y :: ys) := List.Perm.swap _ _ _
          exact (h2.trans h3).trans h4

theorem set_getD_self (l : List ℕ) (i : ℕ) : l.set i (l.getD i 0) = l := by
  rcases Nat.lt_or_ge i l.length with h | h
  · apply List.ext_getElem (by simp)
    intro n h1 h2
    rw [List.getElem_set]
    split_ifs with hin
    · subst hin; rw [List.getD_eq_getElem l 0 h]
    · rfl
  · exact List.set_eq_of_length_le h

theorem swapIdx_perm : ∀ (l : List ℕ) (i j : ℕ), i < l.length → j < l.length →
    (swapIdx l i j).Perm l := by
  intro l
  induction l with
  | nil => intro i j hi _; simp at hi
  | cons x xs ih =>
      intro i j hi hj
      cases i with
      | zero =>
          cases j with
          | zero =>
              unfold swapIdx
              rw [List.set_set, set_getD_self]
          | succ m =>
              have hm : m < xs.length := by simpa using hj
              unfold swapIdx
              have hgj : (x :: xs).getD (m + 1) 0 = xs.getD m 0 := by simp
              have hgi : (x :: xs).getD 0 0 = x := rfl
              rw [hgj, hgi]
              have hset : ((x :: xs).set 0 (xs.getD m 0)).set (m + 1) x =
                  xs.getD m 0 :: xs.set m x := by simp
              rw [hset]
              exact cons_set_perm xs m x hm
      | succ a =>
          cases j with
          | zero =>
              have ha : a < xs.length := by simpa using hi
              unfold swapIdx
              have hgi : (x :: xs).getD (a + 1) 0 = xs.getD a 0 := by simp
              have hgj : (x :: xs).getD 0 0 = x := rfl
              rw [hgi, hgj]
              have hset : ((x :: xs).set (a + 1) x).set 0 (xs.getD a 0) =
                  xs.getD a 0 :: xs.set a x := by simp
              rw [hset]
              exact cons_set_perm xs a x ha
          | succ b =>
              have ha : a < xs.length := by simpa using hi
              have hb : b < xs.length := by simpa using hj
              have hrw : swapIdx (x :: xs) (a + 1) (b + 1) =
                  x :: swapIdx xs a b := by
                unfold swapIdx; simp
              rw [hrw]
              exact (ih a b ha hb).cons x

theorem shuffleSteps_perm (stream : ℕ → ℕ) : ∀ (k : ℕ) (l : List ℕ),
    k < l.length → (shuffleSteps stream k l).Perm l := by
  intro k
  induction k with
  | zero => intro l _; exact List.Perm.refl l
  | succ i ih =>
      intro l hk
      have hj : stream (i + 1) % (i + 2) < l.length :=
        lt_of_le_of_lt (Nat.le_of_lt_succ (Nat.mod_lt _ (Nat.succ_pos _))) hk
      have hswap := swapIdx_perm l (i + 1) (stream (i + 1) % (i + 2)) hk hj
      have hlen : (swapIdx l (i + 1) (stream (i + 1) % (i + 2))).length = l.length := by
        unfold swapIdx; simp
      have hih := ih (swapIdx l (i + 1) (stream (i + 1) % (i + 2)))
        (by rw [hlen]; omega)
      exact hih.trans hswap

theorem rngPermutation_perm (stream : ℕ → ℕ) (n : ℕ) :
    (rngPermutation stream n).Perm (List.range n) := by
  cases n with
  | zero => exact List.Perm.refl _
  | succ m =>
      unfold rngPermutation
      exact shuffleSteps_perm stream (m + 1 - 1) (List.range (m + 1)) (by simp)

/-- Claim C5: `stratified_random_sampling` does return `number` pairwise
distinct in-range positions, and with `number = len(unlabeled)` a permutation
of all positions; but it is NOT reproducible under a fixed seed: the function
creates a fresh UNSEEDED `default_rng()` on every call (the entropy stream is
not derived from `args.seed`, which `main` feeds only to `np.random.seed`,
`random.seed` and `torch.manual_seed`), and two runs over the same
two-element unlabeled sequence with `number = 1` can return different
positions. -/
theorem claim_C5 :
    (∀ (stream : ℕ → ℕ) (n k : ℕ),
        (stratified_random_sampling stream n k).length = min k n) ∧
      (∀ (stream : ℕ → ℕ) (n k : ℕ),
        (stratified_random_sampling stream n k).Nodup) ∧
      (∀ (stream : ℕ → ℕ) (n k : ℕ),
        ∀ i ∈ stratified_random_sampling stream n k, i < n) ∧
      (∀ (stream : ℕ → ℕ) (n : ℕ),
        (stratified_random_sampling stream n n).Perm (List.range n)) ∧
      stratified_random_sampling (fun _ => 0) 2 1 = [1] ∧
      stratified_random_sampling (fun _ => 1) 2 1 = [0] ∧
      stratified_random_sampling (fun _ => 0) 2 1 ≠
        stratified_random_sampling (fun _ => 1) 2 1 := by
  have hlen : ∀ (stream : ℕ → ℕ) (n : ℕ), (rngPermutation stream n).length = n := by
    intro stream n
    rw [(rngPermutation_perm stream n).length_eq, List.length_range]
  have hnodup : ∀ (stream : ℕ → ℕ) (n : ℕ), (rngPermutation stream n).Nodup := by
    intro stream n
    exact ((rngPermutation_perm stream n).nodup_iff).mpr (List.nodup_range n)
  refine ⟨?_, ?_, ?_, ?_, by decide, by decide, by decide⟩
  · intro stream n k
    rw [stratified_random_sampling, rngChoice, List.length_take, hlen]
  · intro stream n k
    exact (hnodup stream n).sublist (List.take_sublist k _)
  · intro stream n k i hi
    have hmem : i ∈ rngPermutation stream n :=
      (List.take_sublist k _).subset hi
    have := (rngPermutation_perm stream n).subset hmem
    simpa using this
  · intro stream n
    rw [stratified_random_sampling, rngChoice,
      List.take_of_length_le (le_of_eq (hlen stream n))]
    exact rngPermutation_perm stream n

/-! ### Strategy construction (uncertainty_sampling.py, `UncertaintySampling.__init__`)

```
def __init__(self, uncertainty_sampling_method, verbose=False):
    self.uncertainty_sampling_method = uncertainty_sampling_method
    self.method = getattr(self, self.uncertainty_sampling_method)
    self.verbose = verbose
```

`getattr` raises `AttributeError` at construction iff the given name is not
an attribute of the object.  At the `getattr` call site the attributes
defined by this class are the five scoring staticmethods, `get_samples`, and
the instance attribute `uncertainty_sampling_method` assigned on the
preceding line (`verbose` is not yet assigned).  Python's inherited dunder
attributes also resolve, so the modelled attribute list is a subset of the
real one; it contains every name the claims exercise. -/

/-- The names of the five scoring functions defined by the class. -/
def scoringMethodNames : List String :=
  ["least_confidence", "margin_confidence", "ratio_confidence",
    "entropy_based", "density_weighted"]

/-- Attributes resolvable on `self` at the `getattr` call inside
`__init__`. -/
def uncertaintySamplingAttrs : List String :=
  scoringMethodNames ++ ["get_samples", "uncertainty_sampling_method"]

/-- Result of `UncertaintySampling(name)`: `none` models the
`AttributeError` raised at construction, `some name` a successfully
constructed object holding the resolved method name. -/
def uncertaintySamplingInit (name : String) : Option String :=
  if name ∈ uncertaintySamplingAttrs then some name else none

/-- Counterexample to claim C8 as stated: `"get_samples"` does not name one
of the defined scoring functions, yet constructing `UncertaintySampling`
with it succeeds (getattr resolves the `get_samples` method), so a
non-scoring method name does NOT always fail at construction. -/
theorem claim_C8_counterexample :
    "get_samples" ∉ scoringMethodNames ∧
      (uncertaintySamplingInit "get_samples").isSome = true := by
  exact ⟨by decide, by decide⟩

/-- Claim C8 (amended): construction with any of the five defined scoring
method names succeeds, and construction with a name that is not an attribute
of the object (e.g. a misspelled method name) raises immediately at
construction; however non-scoring attribute names such as `"get_samples"`
are also accepted at construction time. -/
theorem claim_C8 (name : String) :
    (name ∈ scoringMethodNames → (uncertaintySamplingInit name).isSome = true) ∧
      (name ∉ uncertaintySamplingAttrs → uncertaintySamplingInit name = none) := by
  constructor
  · intro h
    have hmem : name ∈ uncertaintySamplingAttrs :=
      List.mem_append.mpr (Or.inl h)
    simp [uncertaintySamplingInit, hmem]
  · intro h
    simp [uncertaintySamplingInit, h]

/-- Witness for claim C8: `"least_confidence"` is accepted and the
misspelled `"least_conf"` is rejected at construction. -/
theorem claim_C8_witness :
    ("least_confidence" ∈ scoringMethodNames ∧
        (uncertaintySamplingInit "least_confidence").isSome = true) ∧
      ("least_conf" ∉ uncertaintySamplingAttrs ∧
        uncertaintySamplingInit "least_conf" = none) := by
  constructor
  · exact ⟨by decide, (claim_C8 "least_confidence").1 (by decide)⟩
  · exact ⟨by decide, (claim_C8 "least_conf").2 (by decide)⟩

/-! ### Scoring functions (uncertainty_sampling.py, staticmethods of `UncertaintySampling`)

The staticmethods operate row-wise on a batch of probability vectors; they
are modelled per row (`probs : List ℝ` is one row of `F.softmax(output)`,
`feat : List ℝ` one feature row, `feat_train : List (List ℝ)` the reference
feature bank).  `torch.sort` sorts each row ascending; python index `[-1]`
is position `length - 1`, `[-2]` is `length - 2`. -/

/-- Row of `torch.sort(probs, dim=1)[0]`: the probabilities in ascending
order. -/
noncomputable def sortProbs (probs : List ℝ) : List ℝ :=
  probs.insertionSort (fun a b => a ≤ b)

/-- Python `sorted_row[-1]`: the largest probability. -/
noncomputable def top1 (probs : List ℝ) : ℝ :=
  (sortProbs probs).getD (probs.length - 1) 0

/-- Python `sorted_row[-2]`: the second-largest probability. -/
noncomputable def top2 (probs : List ℝ) : ℝ :=
  (sortProbs probs).getD (probs.length - 2) 0

/-- `least_confidence(probs, _, __)`: `torch.max(probs, dim=1)[0]`, the most
confident prediction. -/
noncomputable def least_confidence (probs : List ℝ) : ℝ :=
  (probs.maximum).unbot' 0

/-- `margin_confidence(probs, _, __)`: after sorting,
`probs[:, -1] - probs[:, -2]`. -/
noncomputable def margin_confidence (probs : List ℝ) : ℝ :=
  top1 probs - top2 probs

/-- `ratio_confidence(probs, _, __)`: after sorting,
`probs[:, -1] / probs[:, -2]`. -/
noncomputable def ratio_confidence (probs : List ℝ) : ℝ :=
  top1 probs / top2 probs

/-- `entropy_based(probs, _, __)`:
`torch.sum(-probs * torch.log(probs), dim=1)`. -/
noncomputable def entropy_based (probs : List ℝ) : ℝ :=
  (probs.map (fun p => -p * Real.log p)).sum

/-- Row dot product (one entry of a matrix product). -/
def dotList (u v : List ℝ) : ℝ := (List.zipWith (fun a b => a * b) u v).sum

/-- Euclidean norm of a feature row (`feat.norm(dim=1)`). -/
noncomputable def norm2 (u : List ℝ) : ℝ := Real.sqrt (dotList u u)

/-- One entry of `torch.mm(feat_norm, feat_train_norm.transpose(0, 1))`:
the cosine similarity of the row-normalised vectors. -/
noncomputable def cosineSim (u v : List ℝ) : ℝ :=
  dotList (u.map (fun a => a / norm2 u)) (v.map (fun a => a / norm2 v))

/-- `torch.mean` over a row. -/
noncomputable def meanList (l : List ℝ) : ℝ := l.sum / l.length

/-- `density_weighted(probs, feat, feat_train)`:
`simple_least_conf * (-torch.mean(similarities, dim=1) + 1)`. -/
noncomputable def density_weighted (probs feat : List ℝ)
    (feat_train : List (List ℝ)) : ℝ :=
  least_confidence probs *
    (-(meanList (feat_train.map (fun g => cosineSim feat g))) + 1)

theorem sortProbs_sorted (l : List ℝ) :
    List.Sorted (fun a b : ℝ => a ≤ b) (sortProbs l) :=
  List.sorted_insertionSort _ l

theorem sortProbs_perm (l : List ℝ) : (sortProbs l).Perm l :=
  List.perm_insertionSort _ l

theorem sortProbs_length (l : List ℝ) : (sortProbs l).length = l.length :=
  (sortProbs_perm l).length_eq

theorem sortProbs_map_mono (f : ℝ → ℝ) (hf : Monotone f) (l : List ℝ) :
    sortProbs (l.map f) = (sortProbs l).map f := by
  have hperm : (sortProbs (l.map f)).Perm ((sortProbs l).map f) :=
    (sortProbs_perm (l.map f)).trans ((sortProbs_perm l).symm.map f)
  exact List.eq_of_perm_of_sorted hperm (sortProbs_sorted (l.map f))
    (List.Pairwise.map f (fun a b hab => hf hab) (sortProbs_sorted l))

theorem le_top1 (l : List ℝ) (x : ℝ) (hx : x ∈ l) : x ≤ top1 l := by
  have h0 : 0 < l.length := List.length_pos.mpr (List.ne_nil_of_mem hx)
  have hx2 : x ∈ sortProbs l := (sortProbs_perm l).mem_iff.mpr hx
  obtain ⟨i, hi, hxi⟩ := List.mem_iff_getElem.mp hx2
  have hlast : l.length - 1 < (sortProbs l).length := by
    rw [sortProbs_length]; omega
  have hrel := (sortProbs_sorted l).rel_get_of_le
    (a := ⟨i, hi⟩) (b := ⟨l.length - 1, hlast⟩)
    (by simp only [Fin.mk_le_mk]; rw [sortProbs_length] at hi; omega)
  rw [top1, List.getD_eq_getElem _ 0 hlast]
  simpa [hxi] using hrel

theorem top1_mem (l : List ℝ) (h : 0 < l.length) : top1 l ∈ l := by
  have hlast : l.length - 1 < (sortProbs l).length := by
    rw [sortProbs_length]; omega
  rw [top1, List.getD_eq_getElem _ 0 hlast]
  exact (sortProbs_perm l).subset (List.getElem_mem hlast)

theorem top2_mem (l : List ℝ) (h : 0 < l.length) : top2 l ∈ l := by
  have h2 : l.length - 2 < (sortProbs l).length := by
    rw [sortProbs_length]; omega
  rw [top2, List.getD_eq_getElem _ 0 h2]
  exact (sortProbs_perm l).subset (List.getElem_mem h2)

theorem top2_le_top1 (l : List ℝ) (h : 0 < l.length) : top2 l ≤ top1 l := by
  have h2 : l.length - 2 < (sortProbs l).length := by
    rw [sortProbs_length]; omega
  have h1 : l.length - 1 < (sortProbs l).length := by
    rw [sortProbs_length]; omega
  rw [top1, top2, List.getD_eq_getElem _ 0 h2, List.getD_eq_getElem _ 0 h1]
  exact (sortProbs_sorted l).rel_get_of_le
    (a := ⟨l.length - 2, h2⟩) (b := ⟨l.length - 1, h1⟩)
    (by simp only [Fin.mk_le_mk]; omega)

theorem least_confidence_eq_top1 (l : List ℝ) (h : 0 < l.length) :
    least_confidence l = top1 l := by
  have hmax : l.maximum = (top1 l : WithBot ℝ) :=
    List.maximum_eq_coe_iff.mpr ⟨top1_mem l h, fun a ha => le_top1 l a ha⟩
  rw [least_confidence, hmax, WithBot.unbot'_coe]

theorem top1_map_mono (f : ℝ → ℝ) (hf : Monotone f) (l : List ℝ)
    (h : 0 < l.length) : top1 (l.map f) = f (top1 l) := by
  have h1 : l.length - 1 < (sortProbs l).length := by
    rw [sortProbs_length]; omega
  have h1m : l.length - 1 < ((sortProbs l).map f).length := by
    rw [List.length_map, sortProbs_length]; omega
  rw [top1, top1, sortProbs_map_mono f hf, List.length_map,
    List.getD_eq_getElem _ 0 h1m, List.getElem_map,
    List.getD_eq_getElem _ 0 h1]

theorem top2_map_mono (f : ℝ → ℝ) (hf : Monotone f) (l : List ℝ)
    (h : 0 < l.length) : top2 (l.map f) = f (top2 l) := by
  have h2 : l.length - 2 < (sortProbs l).length := by
    rw [sortProbs_length]; omega
  have h2m : l.length - 2 < ((sortProbs l).map f).length := by
    rw [List.length_map, sortProbs_length]; omega
  rw [top2, top2, sortProbs_map_mono f hf, List.length_map,
    List.getD_eq_getElem _ 0 h2m, List.getElem_map,
    List.getD_eq_getElem _ 0 h2]

theorem top1_gt_inv_length (l : List ℝ) (hlen : 2 ≤ l.length)
    (hsum : l.sum = 1) (hpeak : top2 l < top1 l) :
    1 / (l.length : ℝ) < top1 l := by
  set s := sortProbs l with hs
  set n := l.length with hn
  have hslen : s.length = n := sortProbs_length l
  have h1 : n - 1 < s.length := by omega
  have h2 : n - 2 < s.length := by omega
  have hsum2 : s.sum = 1 := by rw [(sortProbs_perm l).sum_eq, hsum]
  have hsplit : s.take (n - 1) ++ s.drop (n - 1) = s := List.take_append_drop _ _
  have hdrop : s.drop (n - 1) = [s.get ⟨n - 1, h1⟩] := by
    rw [List.drop_eq_getElem_cons h1]
    have : List.drop (n - 1 + 1) s = [] := List.drop_eq_nil_of_le (by omega)
    rw [this]
    rfl
  have htop1 : top1 l = s.get ⟨n - 1, h1⟩ := by
    rw [top1, ← hs, ← hn, List.getD_eq_getElem _ 0 h1]; rfl
  have htop2 : top2 l = s.get ⟨n - 2, h2⟩ := by
    rw [top2, ← hs, ← hn, List.getD_eq_getElem _ 0 h2]; rfl
  have hbound : ∀ x ∈ s.take (n - 1), x ≤ top2 l := by
    intro x hx
    obtain ⟨i, hi, hxi⟩ := List.mem_iff_getElem.mp hx
    have hi2 : i < n - 1 := by
      have := hi
      rw [List.length_take, hslen] at this
      omega
    have hgete : (s.take (n - 1)).get ⟨i, hi⟩ = s.get ⟨i, by omega⟩ := by
      simp [List.getElem_take]
    have hrel := (sortProbs_sorted l).rel_get_of_le
      (a := (⟨i, by omega⟩ : Fin s.length)) (b := ⟨n - 2, h2⟩)
      (by simp only [Fin.mk_le_mk]; omega)
    rw [htop2]
    calc x = (s.take (n - 1)).get ⟨i, hi⟩ := by simp [hxi]
      _ = s.get ⟨i, by omega⟩ := hgete
      _ ≤ s.get ⟨n - 2, h2⟩ := hrel
  have htakelen : (s.take (n - 1)).length = n - 1 := by
    rw [List.length_take, hslen]; omega
  have hsumtake : (s.take (n - 1)).sum ≤ (n - 1 : ℕ) • top2 l := by
    have := List.sum_le_card_nsmul (s.take (n - 1)) (top2 l) hbound
    rwa [htakelen] at this
  have hsum3 : (s.take (n - 1)).sum + top1 l = 1 := by
    have : s.sum = (s.take (n - 1)).sum + (s.drop (n - 1)).sum := by
      rw [← List.sum_append, hsplit]
    rw [this, hdrop] at hsum2
    simpa [htop1] using hsum2
  have hcast : ((n - 1 : ℕ) : ℝ) = (n : ℝ) - 1 := by
    have : 1 ≤ n := by omega
    push_cast [this]
    ring
  have hnsmul : (n - 1 : ℕ) • top2 l = ((n : ℝ) - 1) * top2 l := by
    rw [nsmul_eq_mul, hcast]
  have hnpos : (0 : ℝ) < (n : ℝ) := by
    have : 0 < n := by omega
    exact_mod_cast this
  have hineq : 1 < (n : ℝ) * top1 l := by
    have h1n : (1 : ℝ) ≤ ((n : ℝ) - 1) * top2 l + top1 l := by
      have h := hsumtake
      rw [hnsmul] at h
      linarith [hsum3]
    have hmul : ((n : ℝ) - 1) * top2 l < ((n : ℝ) - 1) * top1 l := by
      apply mul_lt_mul_of_pos_left hpeak
      have : (2 : ℝ) ≤ (n : ℝ) := by exact_mod_cast hlen
      linarith
    nlinarith
  rw [div_lt_iff₀ hnpos]
  linarith [hineq]

/-- A probability row: at least two classes, strictly positive entries,
summing to one (the output regime of `F.softmax`). -/
def ProbVector (p : List ℝ) : Prop :=
  2 ≤ p.length ∧ (∀ x ∈ p, 0 < x) ∧ p.sum = 1

/-- Formalisation of the spec phrase "one probability vector is strictly
more peaked than the other": `q` is `p` smoothed strictly towards the
uniform distribution (a proper mixture `q = (1-t)·p + t·uniform` with
`0 < t ≤ 1`), where `p` is non-degenerate at the top (`top2 p < top1 p`). -/
def StrictlyMorePeaked (p q : List ℝ) : Prop :=
  top2 p < top1 p ∧
    ∃ t : ℝ, 0 < t ∧ t ≤ 1 ∧
      q = p.map (fun x => (1 - t) * x + t / (p.length : ℝ))

/-- Claim C6: whenever one probability vector is strictly more peaked than
another, `least_confidence`, `margin_confidence` and `ratio_confidence`
agree on ranking direction: all three assign the more peaked vector a
strictly higher score, hence under lowest-score selection all three rank the
peaked vector as less uncertain. -/
theorem claim_C6 (p q : List ℝ) (hp : ProbVector p)
    (hpq : StrictlyMorePeaked p q) :
    least_confidence q < least_confidence p ∧
      margin_confidence q < margin_confidence p ∧
      ratio_confidence q < ratio_confidence p := by
  obtain ⟨hlen, hpos, hsum⟩ := hp
  obtain ⟨hpeak, t, ht0, ht1, hq⟩ := hpq
  have h0 : 0 < p.length := by omega
  have hN : (0 : ℝ) < (p.length : ℝ) := by exact_mod_cast h0
  have hmono : Monotone (fun x : ℝ => (1 - t) * x + t / (p.length : ℝ)) := by
    intro x y hxy
    dsimp only
    have h1t : (0 : ℝ) ≤ 1 - t := by linarith
    have := mul_le_mul_of_nonneg_left hxy h1t
    linarith
  have hq0 : 0 < q.length := by
    rw [hq, List.length_map]; omega
  have htop1 : top1 q = (1 - t) * top1 p + t / (p.length : ℝ) := by
    rw [hq]; exact top1_map_mono _ hmono p h0
  have htop2 : top2 q = (1 - t) * top2 p + t / (p.length : ℝ) := by
    rw [hq]; exact top2_map_mono _ hmono p h0
  have hM : 1 / (p.length : ℝ) < top1 p := top1_gt_inv_length p hlen hsum hpeak
  have htN : t / (p.length : ℝ) < t * top1 p := by
    have := mul_lt_mul_of_pos_left hM ht0
    calc t / (p.length : ℝ) = t * (1 / (p.length : ℝ)) := by ring
      _ < t * top1 p := this
  refine ⟨?_, ?_, ?_⟩
  · rw [least_confidence_eq_top1 q hq0, least_confidence_eq_top1 p h0, htop1]
    nlinarith
  · rw [margin_confidence, margin_confidence, htop1, htop2]
    have hd : 0 < top1 p - top2 p := by linarith
    nlinarith
  · rw [ratio_confidence, ratio_confidence, htop1, htop2]
    have hb0 : 0 < top2 p := hpos _ (top2_mem p h0)
    have htN0 : 0 < t / (p.length : ℝ) := div_pos ht0 hN
    have hfb0 : 0 < (1 - t) * top2 p + t / (p.length : ℝ) := by
      have h1t : (0 : ℝ) ≤ 1 - t := by linarith
      nlinarith
    rw [div_lt_div_iff₀ hfb0 hb0]
    have hba : t / (p.length : ℝ) * top2 p < t / (p.length : ℝ) * top1 p :=
      mul_lt_mul_of_pos_left hpeak htN0
    nlinarith

/-- Witness for claim C6 at `p = [3/4, 1/4]`, `q = [5/8, 3/8]`
(`q` is `p` mixed half-and-half with the uniform distribution). -/
theorem claim_C6_witness :
    ProbVector [(3 : ℝ)/4, 1/4] ∧
      StrictlyMorePeaked [(3 : ℝ)/4, 1/4] [(5 : ℝ)/8, 3/8] ∧
      least_confidence [(5 : ℝ)/8, 3/8] < least_confidence [(3 : ℝ)/4, 1/4] := by
  have hsort : sortProbs [(3 : ℝ)/4, 1/4] = [1/4, 3/4] := by
    norm_num [sortProbs, List.insertionSort, List.orderedInsert]
  have htop : top2 [(3 : ℝ)/4, 1/4] < top1 [(3 : ℝ)/4, 1/4] := by
    rw [top1, top2, hsort]
    norm_num
  have hp : ProbVector [(3 : ℝ)/4, 1/4] := by
    refine ⟨by norm_num, ?_, by norm_num⟩
    intro x hx
    rcases List.mem_cons.mp hx with h | h
    · rw [h]; norm_num
    · rcases List.mem_cons.mp h with h2 | h2
      · rw [h2]; norm_num
      · simp at h2
  have hsp : StrictlyMorePeaked [(3 : ℝ)/4, 1/4] [(5 : ℝ)/8, 3/8] := by
    refine ⟨htop, 1/2, by norm_num, by norm_num, ?_⟩
    norm_num [List.map_cons]
  exact ⟨hp, hsp, (claim_C6 _ _ hp hsp).1⟩

/-- Claim C7: when the cosine similarity of an example's feature row to
every reference feature row is zero, the `density_weighted` score equals the
`least_confidence` score (the density factor `(1 - mean similarity)`
degenerates to `1`). -/
theorem claim_C7 (probs feat : List ℝ) (feat_train : List (List ℝ))
    (hne : feat_train ≠ [])
    (hzero : ∀ g ∈ feat_train, cosineSim feat g = 0) :
    density_weighted probs feat feat_train = least_confidence probs := by
  have hmap : feat_train.map (fun g => cosineSim feat g) =
      List.replicate (feat_train.map (fun g => cosineSim feat g)).length 0 := by
    apply List.eq_replicate_of_mem
    intro x hx
    obtain ⟨g, hg, hxg⟩ := List.mem_map.mp hx
    rw [← hxg]
    exact hzero g hg
  rw [density_weighted, hmap, meanList]
  simp

/-- Witness for claim C7: feature `[1, 0]` against the single reference
feature `[0, 1]` (orthogonal, hence zero cosine similarity). -/
theorem claim_C7_witness :
    ([[(0 : ℝ), 1]] ≠ ([] : List (List ℝ))) ∧
      (∀ g ∈ [[(0 : ℝ), 1]], cosineSim [(1 : ℝ), 0] g = 0) ∧
      density_weighted [(1 : ℝ)/2, 1/2] [(1 : ℝ), 0] [[(0 : ℝ), 1]] =
        least_confidence [(1 : ℝ)/2, 1/2] := by
  have hzero : ∀ g ∈ [[(0 : ℝ), 1]], cosineSim [(1 : ℝ), 0] g = 0 := by
    intro g hg
    have hgeq : g = [(0 : ℝ), 1] := by simpa using hg
    rw [hgeq]
    norm_num [cosineSim, dotList, norm2, List.zipWith]
  refine ⟨by simp, hzero, ?_⟩
  exact claim_C7 [(1 : ℝ)/2, 1/2] [(1 : ℝ), 0] [[(0 : ℝ), 1]] (by simp) hzero

/-! ### Selection pipeline (`UncertaintySampling.get_samples`)

`get_samples` first drains the training loader once, concatenating the
feature rows into `feat_train`; it then drains the unlabeled loader once,
computing `self.method(F.softmax(output, dim=1), feat, feat_train)` per
example and concatenating the scores; finally it returns
`samples.argsort(descending=True)[:number]` for `entropy_based` and
`samples.argsort()[:number]` otherwise.  The external model is a function
from an example to its `(output, feat)` rows; loaders are example lists
(concatenating per-batch results in batch order equals mapping over the
examples in enumeration order, since every score is per-row).

`torch.argsort` is called with its default `stable=False`, whose tie order
is unspecified; it is modelled relationally by `IsArgsort`: any permutation
of the positions along which the scores are sorted is a permitted output. -/

/-- The scoring methods dispatched by `self.method`. -/
inductive SamplingMethod where
  | least_confidence
  | margin_confidence
  | ratio_confidence
  | entropy_based
  | density_weighted
deriving DecidableEq

/-- Dispatch of `self.method(probs, feat, feat_train)` per row. -/
noncomputable def scoreOf : SamplingMethod → List ℝ → List ℝ → List (List ℝ) → ℝ
  | SamplingMethod.least_confidence, probs, _, _ => least_confidence probs
  | SamplingMethod.margin_confidence, probs, _, _ => margin_confidence probs
  | SamplingMethod.ratio_confidence, probs, _, _ => ratio_confidence probs
  | SamplingMethod.entropy_based, probs, _, _ => entropy_based probs
  | SamplingMethod.density_weighted, probs, feat, ft => density_weighted probs feat ft

/-- One row of `F.softmax(output, dim=1)`. -/
noncomputable def softmaxRow (logits : List ℝ) : List ℝ :=
  logits.map (fun x => Real.exp x / ((logits.map Real.exp).sum))

/-- The reference feature bank: features of the full training loader,
concatenated in enumeration order. -/
def feat_train_of {α : Type} (model : α → List ℝ × List ℝ)
    (trainLoader : List α) : List (List ℝ) :=
  trainLoader.map (fun x => (model x).2)

/-- The score sequence over the unlabeled loader, one score per example in
enumeration order. -/
noncomputable def scores_of {α : Type} (m : SamplingMethod)
    (model : α → List ℝ × List ℝ) (trainLoader unlabeledLoader : List α) :
    List ℝ :=
  unlabeledLoader.map (fun x =>
    scoreOf m (softmaxRow (model x).1) (model x).2 (feat_train_of model trainLoader))

/-- Sort direction used by `get_samples`: descending
(`argsort(descending=True)`) for `entropy_based`, ascending (`argsort()`)
for every other method. -/
def sortRelation (m : SamplingMethod) : ℝ → ℝ → Prop :=
  if m = SamplingMethod.entropy_based then (fun a b => b ≤ a) else (fun a b => a ≤ b)

/-- Relational model of `torch.argsort(stable=False)`: `perm` is a
permutation of the score positions along which the scores are `r`-sorted.
Tie order is NOT constrained, matching the unspecified order of equivalent
elements under `stable=False`. -/
def IsArgsort (r : ℝ → ℝ → Prop) (scores : List ℝ) (perm : List ℕ) : Prop :=
  perm.Perm (List.range scores.length) ∧
    List.Sorted r (perm.map (fun i => scores.getD i 0))

/-- `sel` is a permitted value of `argsort(...)[:number]` over `scores`. -/
def SelectedBy (m : SamplingMethod) (scores : List ℝ) (number : ℕ)
    (sel : List ℕ) : Prop :=
  ∃ perm, IsArgsort (sortRelation m) scores perm ∧ sel = perm.take number

/-- `sel` is a permitted return value of
`get_samples(epoch, args, model, train_loader, unlabeled_loader, number)`. -/
def GetSamplesRel {α : Type} (m : SamplingMethod)
    (model : α → List ℝ × List ℝ) (trainLoader unlabeledLoader : List α)
    (number : ℕ) (sel : List ℕ) : Prop :=
  SelectedBy m (scores_of m model trainLoader unlabeledLoader) number sel

theorem selectedBy_mem_lt (m : SamplingMethod) (scores : List ℝ) (number : ℕ)
    (sel : List ℕ) (h : SelectedBy m scores number sel) :
    ∀ i ∈ sel, i < scores.length := by
  obtain ⟨perm, ⟨hperm, _⟩, rfl⟩ := h
  intro i hi
  have hip : i ∈ perm := (List.take_sublist number perm).subset hi
  have := hperm.subset hip
  simpa using this

theorem selectedBy_length (m : SamplingMethod) (scores : List ℝ) (number : ℕ)
    (sel : List ℕ) (h : SelectedBy m scores number sel) :
    sel.length = min number scores.length := by
  obtain ⟨perm, ⟨hperm, _⟩, rfl⟩ := h
  rw [List.length_take, hperm.length_eq, List.length_range]

theorem selectedBy_nodup (m : SamplingMethod) (scores : List ℝ) (number : ℕ)
    (sel : List ℕ) (h : SelectedBy m scores number sel) : sel.Nodup := by
  obtain ⟨perm, ⟨hperm, _⟩, rfl⟩ := h
  have hnd : perm.Nodup := (hperm.nodup_iff).mpr (List.nodup_range _)
  exact hnd.sublist (List.take_sublist number perm)

theorem selectedBy_rel (m : SamplingMethod) (scores : List ℝ) (number : ℕ)
    (sel : List ℕ) (h : SelectedBy m scores number sel) :
    ∀ i ∈ sel, ∀ j, j < scores.length → j ∉ sel →
      sortRelation m (scores.getD i 0) (scores.getD j 0) := by
  obtain ⟨perm, ⟨hperm, hsort⟩, rfl⟩ := h
  intro i hi j hj hjsel
  have hjp : j ∈ perm := hperm.mem_iff.mpr (List.mem_range.mpr hj)
  have hjdrop : j ∈ perm.drop number := by
    rcases List.mem_append.mp
      ((List.take_append_drop number perm) ▸ hjp) with hjtake | hjdrop
    · exact absurd hjtake hjsel
    · exact hjdrop
  have hitake : scores.getD i 0 ∈ (perm.map (fun k => scores.getD k 0)).take number := by
    rw [← List.map_take]
    exact List.mem_map_of_mem _ hi
  have hjdrop2 : scores.getD j 0 ∈ (perm.map (fun k => scores.getD k 0)).drop number := by
    rw [← List.map_drop]
    exact List.mem_map_of_mem _ hjdrop
  exact hsort.rel_of_mem_take_of_mem_drop hitake hjdrop2

theorem entropy_uniform_three :
    entropy_based [(1 : ℝ)/3, 1/3, 1/3] = Real.log 3 := by
  have h3 : Real.log ((1 : ℝ)/3) = -Real.log 3 := by
    rw [one_div, Real.log_inv]
  simp only [entropy_based, List.map_cons, List.map_nil, List.sum_cons,
    List.sum_nil, h3]
  ring

theorem entropy_peaked_three :
    entropy_based [(3 : ℝ)/4, 1/8, 1/8] =
      (9/4) * Real.log 2 - (3/4) * Real.log 3 := by
  have h34 : Real.log ((3 : ℝ)/4) = Real.log 3 - 2 * Real.log 2 := by
    rw [Real.log_div (by norm_num) (by norm_num)]
    have h4 : (4 : ℝ) = 2 ^ (2 : ℕ) := by norm_num
    rw [h4, Real.log_pow]
    push_cast
    ring
  have h18 : Real.log ((1 : ℝ)/8) = -(3 * Real.log 2) := by
    rw [one_div, Real.log_inv]
    have h8 : (8 : ℝ) = 2 ^ (3 : ℕ) := by norm_num
    rw [h8, Real.log_pow]
    push_cast
    ring
  simp only [entropy_based, List.map_cons, List.map_nil, List.sum_cons,
    List.sum_nil, h34, h18]
  ring

theorem entropy_peaked_lt_uniform :
    entropy_based [(3 : ℝ)/4, 1/8, 1/8] < entropy_based [(1 : ℝ)/3, 1/3, 1/3] := by
  rw [entropy_uniform_three, entropy_peaked_three]
  have hlog : Real.log 512 < Real.log 2187 :=
    Real.log_lt_log (by norm_num) (by norm_num)
  have h512 : Real.log (512 : ℝ) = 9 * Real.log 2 := by
    have h : (512 : ℝ) = 2 ^ (9 : ℕ) := by norm_num
    rw [h, Real.log_pow]
    push_cast
    ring
  have h2187 : Real.log (2187 : ℝ) = 7 * Real.log 3 := by
    have h : (2187 : ℝ) = 3 ^ (7 : ℕ) := by norm_num
    rw [h, Real.log_pow]
    push_cast
    ring
  rw [h512, h2187] at hlog
  linarith

theorem perm_range_two (perm : List ℕ) (h : perm.Perm (List.range 2)) :
    perm = [0, 1] ∨ perm = [1, 0] := by
  have hlen : perm.length = 2 := by simpa using h.length_eq
  rcases perm with _ | ⟨a, rest⟩
  · simp at hlen
  rcases rest with _ | ⟨b, rest2⟩
  · simp at hlen
  rcases rest2 with _ | ⟨c, rest3⟩
  swap
  · simp at hlen
  have ha : a < 2 := by
    have hmem : a ∈ List.range 2 := h.subset (by simp)
    simpa using hmem
  have hb : b < 2 := by
    have hmem : b ∈ List.range 2 := h.subset (by simp)
    simpa using hmem
  have hnd : ([a, b] : List ℕ).Nodup := (h.nodup_iff).mpr (List.nodup_range 2)
  have hab : a ≠ b := by simpa using hnd
  have hcase : (a = 0 ∧ b = 1) ∨ (a = 1 ∧ b = 0) := by omega
  rcases hcase with ⟨ha0, hb1⟩ | ⟨ha1, hb0⟩
  · subst ha0; subst hb1; exact Or.inl rfl
  · subst ha1; subst hb0; exact Or.inr rfl

/-- Claim C3: `entropy_based` computes `-Σ p·log(p)` per example and
`get_samples` selects the `number` examples with the HIGHEST scores for it
(descending argsort), whereas every other strategy selects the `number`
examples with the LOWEST scores (ascending argsort); in particular, for a
batch holding the uniform distribution over 3 classes and a near-one-hot
vector, entropy-based selection with `number = 1` must pick the uniform
one. -/
theorem claim_C3 :
    (∀ probs : List ℝ, entropy_based probs =
        -((probs.map (fun p => p * Real.log p)).sum)) ∧
      (∀ (scores : List ℝ) (number : ℕ) (sel : List ℕ),
        SelectedBy SamplingMethod.entropy_based scores number sel →
          ∀ i ∈ sel, ∀ j, j < scores.length → j ∉ sel →
            scores.getD j 0 ≤ scores.getD i 0) ∧
      (∀ m : SamplingMethod, m ≠ SamplingMethod.entropy_based →
        ∀ (scores : List ℝ) (number : ℕ) (sel : List ℕ),
          SelectedBy m scores number sel →
            ∀ i ∈ sel, ∀ j, j < scores.length → j ∉ sel →
              scores.getD i 0 ≤ scores.getD j 0) ∧
      (∀ sel : List ℕ,
        SelectedBy SamplingMethod.entropy_based
          [entropy_based [(1 : ℝ)/3, 1/3, 1/3],
            entropy_based [(3 : ℝ)/4, 1/8, 1/8]] 1 sel →
          sel = [0]) := by
  refine ⟨?_, ?_, ?_, ?_⟩
  · intro probs
    induction probs with
    | nil => simp [entropy_based]
    | cons a as ih =>
        simp only [entropy_based, List.map_cons, List.sum_cons] at ih ⊢
        rw [ih]
        ring
  · intro scores number sel h i hi j hj hjsel
    have hrel := selectedBy_rel SamplingMethod.entropy_based scores number sel
      h i hi j hj hjsel
    simpa [sortRelation] using hrel
  · intro m hm scores number sel h i hi j hj hjsel
    have hrel := selectedBy_rel m scores number sel h i hi j hj hjsel
    simpa [sortRelation, hm] using hrel
  · intro sel h
    obtain ⟨perm, ⟨hperm, hsort⟩, hsel⟩ := h
    have hperm2 : perm.Perm (List.range 2) := by simpa using hperm
    rcases perm_range_two perm hperm2 with h01 | h10
    · rw [hsel, h01]
      rfl
    · exfalso
      rw [h10] at hsort
      simp only [List.map_cons, List.map_nil] at hsort
      have hle := (List.sorted_cons.mp hsort).1 _ (List.mem_singleton_self _)
      simp only [sortRelation, if_pos rfl] at hle
      have hgd0 : ([entropy_based [(1 : ℝ)/3, 1/3, 1/3],
          entropy_based [(3 : ℝ)/4, 1/8, 1/8]] : List ℝ).getD 0 0 =
          entropy_based [(1 : ℝ)/3, 1/3, 1/3] := rfl
      have hgd1 : ([entropy_based [(1 : ℝ)/3, 1/3, 1/3],
          entropy_based [(3 : ℝ)/4, 1/8, 1/8]] : List ℝ).getD 1 0 =
          entropy_based [(3 : ℝ)/4, 1/8, 1/8] := rfl
      rw [hgd0, hgd1] at hle
      exact absurd hle (not_le.mpr entropy_peaked_lt_uniform)

/-- Witness for claim C3: the descending selection `[0]` (the uniform
vector's position) is permitted, and the theorem yields that the selected
uniform vector's entropy dominates the unselected near-one-hot one. -/
theorem claim_C3_witness :
    SelectedBy SamplingMethod.entropy_based
        [entropy_based [(1 : ℝ)/3, 1/3, 1/3],
          entropy_based [(3 : ℝ)/4, 1/8, 1/8]] 1 [0] ∧
      entropy_based [(3 : ℝ)/4, 1/8, 1/8] ≤ entropy_based [(1 : ℝ)/3, 1/3, 1/3] := by
  have hsel : SelectedBy SamplingMethod.entropy_based
      [entropy_based [(1 : ℝ)/3, 1/3, 1/3],
        entropy_based [(3 : ℝ)/4, 1/8, 1/8]] 1 [0] := by
    refine ⟨[0, 1], ⟨by decide, ?_⟩, rfl⟩
    simp only [List.map_cons, List.map_nil, sortRelation, if_pos rfl,
      List.sorted_cons]
    refine ⟨?_, by simp⟩
    intro b hb
    have hbeq : b = ([entropy_based [(1 : ℝ)/3, 1/3, 1/3],
        entropy_based [(3 : ℝ)/4, 1/8, 1/8]] : List ℝ).getD 1 0 := by
      simpa using hb
    rw [hbeq]
    exact entropy_peaked_lt_uniform.le
  refine ⟨hsel, ?_⟩
  have h := claim_C3.2.1 _ 1 [0] hsel 0 (by simp) 1 (by simp) (by simp)
  simpa using h

/-- Counterexample to claim C4 as stated: on the tied score batch `[0, 0]`
with `number = 2`, the return value `[1, 0]` is permitted by
`torch.argsort` (called with its default `stable=False`, whose tie order is
unspecified), yet it lists position `1` before position `0`, so the
returned positions of tied examples need not appear in their original
enumeration order. -/
theorem claim_C4_counterexample :
    SelectedBy SamplingMethod.least_confidence [(0 : ℝ), 0] 2 [1, 0] ∧
      ([1, 0] : List ℕ) ≠ [0, 1] := by
  constructor
  · refine ⟨[1, 0], ⟨by decide, ?_⟩, rfl⟩
    simp [sortRelation, List.sorted_cons]
  · decide

/-- Claim C4 (amended): `get_samples` builds the reference feature bank from
one pass over the training loader, computes one score per unlabeled example
in loader enumeration order, and returns `number` distinct positions (into
the unlabeled enumeration order) of most-uncertain examples — every selected
score sorts before every unselected one under the method's direction; the
order among tied scores is unspecified (`torch.argsort` is called with
default `stable=False`). -/
theorem claim_C4 {α : Type} (m : SamplingMethod) (model : α → List ℝ × List ℝ)
    (trainLoader unlabeledLoader : List α) (number : ℕ) (sel : List ℕ)
    (h : GetSamplesRel m model trainLoader unlabeledLoader number sel) :
    (scores_of m model trainLoader unlabeledLoader).length =
        unlabeledLoader.length ∧
      (∀ (i : ℕ) (hi : i < unlabeledLoader.length),
        (scores_of m model trainLoader unlabeledLoader).getD i 0 =
          scoreOf m (softmaxRow (model (unlabeledLoader.get ⟨i, hi⟩)).1)
            (model (unlabeledLoader.get ⟨i, hi⟩)).2
            (feat_train_of model trainLoader)) ∧
      (∀ i ∈ sel, i < unlabeledLoader.length) ∧
      sel.length = min number unlabeledLoader.length ∧
      sel.Nodup ∧
      (∀ i ∈ sel, ∀ j, j < unlabeledLoader.length → j ∉ sel →
        sortRelation m
          ((scores_of m model trainLoader unlabeledLoader).getD i 0)
          ((scores_of m model trainLoader unlabeledLoader).getD j 0)) := by
  have hlen : (scores_of m model trainLoader unlabeledLoader).length =
      unlabeledLoader.length := by
    rw [scores_of, List.length_map]
  refine ⟨hlen, ?_, ?_, ?_, ?_, ?_⟩
  · intro i hi
    have hi2 : i < (scores_of m model trainLoader unlabeledLoader).length := by
      rw [hlen]; exact hi
    rw [List.getD_eq_getElem _ 0 hi2]
    simp only [scores_of, List.getElem_map]
    rfl
  · intro i hi
    have := selectedBy_mem_lt m _ number sel h i hi
    rwa [hlen] at this
  · have := selectedBy_length m _ number sel h
    rwa [hlen] at this
  · exact selectedBy_nodup m _ number sel h
  · intro i hi j hj hjsel
    exact selectedBy_rel m _ number sel h i hi j
      (by rw [hlen]; exact hj) hjsel

/-- Witness for claim C4: a one-example unlabeled loader, where the sole
permitted selection is `[0]`. -/
theorem claim_C4_witness :
    GetSamplesRel SamplingMethod.least_confidence
        (fun _ : ℕ => ([(0 : ℝ)], [(1 : ℝ)])) [0] [5] 1 [0] ∧
      (∀ i ∈ ([0] : List ℕ), i < ([5] : List ℕ).length) := by
  have hrel : GetSamplesRel SamplingMethod.least_confidence
      (fun _ : ℕ => ([(0 : ℝ)], [(1 : ℝ)])) [0] [5] 1 [0] := by
    refine ⟨[0], ⟨?_, ?_⟩, rfl⟩
    · have hl : (scores_of SamplingMethod.least_confidence
          (fun _ : ℕ => ([(0 : ℝ)], [(1 : ℝ)])) [0] [5]).length = 1 := by
        rw [scores_of, List.length_map]
        rfl
      rw [hl]
      decide
    · simp
  exact ⟨hrel, (claim_C4 SamplingMethod.least_confidence _ _ _ 1 [0] hrel).2.2.1⟩
